import Mathlib

/-!
Verification development for the `effect-saga` library: a shallow embedding in
Lean 4 of the stream-deduplication operator, the store-action bridge, the state
stream, the `takeEvery` / `takeLatest` concurrency combinators, the saga runner
(start / stop / switchSaga with its fiber observer), and the observer's error
classification, together with theorems settling the specified properties.
-/

set_option maxRecDepth 4000

/-! ## `streamDistinctUntilChanged` (src/utils/streamDistinctUntilChanged.ts)

The source builds the operator from a `Stream.scan` followed by a `Stream.filter`
and a `Stream.map`:

```
const initial = Symbol('initial')
const _isEqual = (a, b) => { if (a === initial) return false; return isEqual(a, b) }
stream.pipe(
  Stream.scan({ isEqual: false, lastValue: initial },
    (a, b) => ({ isEqual: _isEqual(a.lastValue, b), lastValue: b })),
  Stream.filter(res => !res.isEqual && res.lastValue !== initial),
  Stream.map(({ lastValue }) => lastValue))
```

On a finite input this pipeline is `List.scanl` (which, like `Stream.scan`,
emits the seed state first and then every intermediate state), then `filter`,
then the projection of `lastValue`.  The `initial` sentinel is embedded as
`Option.none`.
-/

/-- State threaded by the source's `Stream.scan`: the `isEqual` flag computed
for the current element and the `lastValue` seen so far (`none` embeds the
`initial` sentinel). -/
structure ScanResult (A : Type) where
  isEqual : Bool
  lastValue : Option A
  deriving Repr, DecidableEq

/-- The source's `_isEqual`: the sentinel compares unequal to everything,
otherwise the caller's predicate decides. -/
def sentinelIsEqual {A : Type} (isEqual : A → A → Bool) :
    Option A → A → Bool
  | none, _ => false
  | some a, b => isEqual a b

/-- One step of the source's `Stream.scan`:
`(a, b) => ({ isEqual: _isEqual(a.lastValue, b), lastValue: b })`. -/
def sducStep {A : Type} (isEqual : A → A → Bool) (a : ScanResult A) (b : A) :
    ScanResult A :=
  { isEqual := sentinelIsEqual isEqual a.lastValue b, lastValue := some b }

/-- The source's filter predicate: `res => !res.isEqual && res.lastValue !== initial`. -/
def sducKeep {A : Type} (res : ScanResult A) : Bool :=
  !res.isEqual && res.lastValue.isSome

/-- `streamDistinctUntilChanged`, embedded on finite inputs: scan (seed state
`{ isEqual: false, lastValue: initial }` emitted first, as `Stream.scan` does),
filter, then project `lastValue` (the projection is total because the filter
keeps only states with `lastValue ≠ initial`). -/
def streamDistinctUntilChanged {A : Type} (isEqual : A → A → Bool)
    (xs : List A) : List A :=
  (((xs.scanl (sducStep isEqual) { isEqual := false, lastValue := none }).filter
      sducKeep).filterMap (fun res => res.lastValue))

/-- Direct recursive rendering of what the pipeline computes: the accumulator
is the *previous input element* (`none` before the first element); an element
is emitted iff the predicate relates the previous input element and the current
one as unequal.  The accumulator advances to the current element whether or not
it was emitted — this is exactly the scan's `lastValue: b` update. -/
def prevInputGo {A : Type} (isEqual : A → A → Bool) :
    Option A → List A → List A
  | _, [] => []
  | none, x :: xs => x :: prevInputGo isEqual (some x) xs
  | some p, x :: xs =>
    if isEqual p x then prevInputGo isEqual (some x) xs
    else x :: prevInputGo isEqual (some x) xs

/-- The prev-input characterization of the operator, starting with no prior
element. -/
def prevInputDistinct {A : Type} (isEqual : A → A → Bool) (xs : List A) :
    List A :=
  prevInputGo isEqual none xs

/-- The deduplication the spec describes, word for word: the first input value
is emitted unconditionally, and each subsequent value is emitted iff
`eq(lastEmitted, current)` is false, where the accumulator `lastEmitted` is the
most recently *emitted* value (it does not advance on suppressed values).
Stated as a second definition purely for comparison with the source's
behaviour. -/
def specLastEmittedGo {A : Type} (isEqual : A → A → Bool) :
    Option A → List A → List A
  | _, [] => []
  | none, x :: xs => x :: specLastEmittedGo isEqual (some x) xs
  | some last, x :: xs =>
    if isEqual last x then specLastEmittedGo isEqual (some last) xs
    else x :: specLastEmittedGo isEqual (some x) xs

/-- Spec-worded deduplication with no value emitted yet. -/
def specLastEmittedDistinct {A : Type} (isEqual : A → A → Bool)
    (xs : List A) : List A :=
  specLastEmittedGo isEqual none xs

example :
    streamDistinctUntilChanged (fun a b : Nat => a == b)
      [1, 1, 2, 2, 2, 3, 3, 1, 1, 4] = [1, 2, 3, 1, 4] := by decide

example :
    streamDistinctUntilChanged (fun a _ : Nat => a == 1) [1, 5, 7] = [1, 7] := by
  decide

example :
    specLastEmittedDistinct (fun a _ : Nat => a == 1) [1, 5, 7] = [1] := by
  decide

/-- The scan–filter–map pipeline, started from a state whose `lastValue` is a
real element `p` with flag `e`, emits `p` (unless the flag suppresses it)
followed by the prev-input deduplication of the remaining input. -/
theorem sducTail_eq {A : Type} (isEqual : A → A → Bool) :
    ∀ (xs : List A) (e : Bool) (p : A),
      ((List.scanl (sducStep isEqual) { isEqual := e, lastValue := some p }
            xs).filter sducKeep).filterMap (fun res => res.lastValue)
        = (if e then [] else [p]) ++ prevInputGo isEqual (some p) xs := by
  intro xs
  induction xs with
  | nil =>
    intro e p
    cases e <;> simp [List.scanl, sducKeep, prevInputGo]
  | cons x xs ih =>
    intro e p
    rw [List.scanl_cons]
    by_cases h : isEqual p x
    · cases e <;>
        simp [sducKeep, sducStep, sentinelIsEqual, prevInputGo, h, ih]
    · cases e <;>
        simp [sducKeep, sducStep, sentinelIsEqual, prevInputGo, h, ih]

/-- The pipeline of the source equals the direct prev-input deduplication. -/
theorem streamDistinctUntilChanged_eq_prevInput {A : Type}
    (isEqual : A → A → Bool) (xs : List A) :
    streamDistinctUntilChanged isEqual xs = prevInputDistinct isEqual xs := by
  cases xs with
  | nil => rfl
  | cons x xs =>
    unfold streamDistinctUntilChanged prevInputDistinct
    rw [List.scanl_cons]
    have hstep : sducStep isEqual { isEqual := false, lastValue := none } x
        = { isEqual := false, lastValue := some x } := by
      simp [sducStep, sentinelIsEqual]
    simp only [hstep, List.singleton_append, List.filter_cons]
    have hseed : sducKeep (A := A) { isEqual := false, lastValue := none } = false := by
      simp [sducKeep]
    simp only [hseed, Bool.false_eq_true, if_false]
    rw [sducTail_eq isEqual xs false x]
    simp [prevInputGo]

/-- The first output of the operator is the first input, for every predicate:
the sentinel never compares equal, so the first element always passes. -/
theorem streamDistinctUntilChanged_head {A : Type} (isEqual : A → A → Bool)
    (xs : List A) :
    (streamDistinctUntilChanged isEqual xs).head? = xs.head? := by
  rw [streamDistinctUntilChanged_eq_prevInput]
  cases xs <;> simp [prevInputDistinct, prevInputGo]

/-- The spec-worded deduplication, seeded with last-emitted value `l`, emits a
sequence that `l` itself chains with: no adjacent pair is related by the
predicate. -/
theorem specLastEmittedGo_chain {A : Type} (isEqual : A → A → Bool) :
    ∀ (xs : List A) (l : A),
      List.Chain' (fun a b => isEqual a b = false)
        (l :: specLastEmittedGo isEqual (some l) xs) := by
  intro xs
  induction xs with
  | nil => intro l; simp [specLastEmittedGo]
  | cons x xs ih =>
    intro l
    by_cases h : isEqual l x
    · simpa [specLastEmittedGo, h] using ih l
    · have hx := ih x
      simp only [specLastEmittedGo, h, if_false]
      exact List.Chain'.cons (by simpa using h) hx

/-- For a symmetric and transitive predicate, comparing against the previous
input element and comparing against the last emitted value agree, whenever the
two accumulators are linked (`p = l` or `isEqual l p`). -/
theorem prevInputGo_eq_specGo {A : Type} (isEqual : A → A → Bool)
    (hsym : ∀ a b, isEqual a b = isEqual b a)
    (htrans : ∀ a b c, isEqual a b = true → isEqual b c = true →
      isEqual a c = true) :
    ∀ (xs : List A) (l p : A), (p = l ∨ isEqual l p = true) →
      prevInputGo isEqual (some p) xs = specLastEmittedGo isEqual (some l) xs := by
  intro xs
  induction xs with
  | nil => intro l p _; rfl
  | cons x xs ih =>
    intro l p hlink
    have hiff : isEqual p x = isEqual l x := by
      rcases hlink with rfl | hlp
      · rfl
      · by_cases hpx : isEqual p x
        · have : isEqual l x = true := htrans l p x hlp hpx
          rw [hpx, this]
        · by_cases hlx : isEqual l x
          · have hpl : isEqual p l = true := by rw [hsym]; exact hlp
            have : isEqual p x = true := htrans p l x hpl hlx
            exact absurd this hpx
          · simp [hpx, hlx]
    by_cases hlx : isEqual l x
    · have hpx : isEqual p x = true := by rw [hiff]; exact hlx
      simp only [prevInputGo, specLastEmittedGo, hpx, hlx, if_true]
      exact ih l x (Or.inr hlx)
    · have hpx : isEqual p x = false := by rw [hiff]; simpa using hlx
      simp only [prevInputGo, specLastEmittedGo, hpx, hlx]
      simp only [Bool.false_eq_true, if_false, List.cons.injEq, true_and]
      exact ih x x (Or.inl rfl)

/-- For a symmetric and transitive predicate the source operator implements the
spec's last-emitted deduplication exactly. -/
theorem streamDistinctUntilChanged_eq_spec_of_equiv {A : Type}
    (isEqual : A → A → Bool)
    (hsym : ∀ a b, isEqual a b = isEqual b a)
    (htrans : ∀ a b c, isEqual a b = true → isEqual b c = true →
      isEqual a c = true)
    (xs : List A) :
    streamDistinctUntilChanged isEqual xs = specLastEmittedDistinct isEqual xs := by
  rw [streamDistinctUntilChanged_eq_prevInput]
  cases xs with
  | nil => rfl
  | cons x xs =>
    simp only [prevInputDistinct, specLastEmittedDistinct, prevInputGo,
      specLastEmittedGo, List.cons.injEq, true_and]
    exact prevInputGo_eq_specGo isEqual hsym htrans xs x x (Or.inl rfl)

/-- Output of the spec-worded deduplication never has two adjacent elements
related by the predicate. -/
theorem specLastEmittedDistinct_chain {A : Type} (isEqual : A → A → Bool)
    (xs : List A) :
    List.Chain' (fun a b => isEqual a b = false)
      (specLastEmittedDistinct isEqual xs) := by
  cases xs with
  | nil => simp [specLastEmittedDistinct, specLastEmittedGo]
  | cons x xs =>
    simpa [specLastEmittedDistinct, specLastEmittedGo] using
      specLastEmittedGo_chain isEqual xs x

/-! ## Claims C3 and C8: the deduplication contract

The scan's accumulator advances to every consumed element (`lastValue: b`),
emitted or not, so the source compares each element against the *previous
input element*, not against the last *emitted* element as the spec words it.
The two readings agree exactly when the predicate is symmetric and transitive
(in particular for the reference equality used by `makeStateStream` and for
every equivalence used in the repository's tests), and diverge for predicates
that are not. -/

/-- C3, counterexample.  With the (non-symmetric, non-transitive) predicate
`eq a b := a == 1` and input `[1, 5, 7]`, the source emits `[1, 7]`: `7` is
emitted even though `eq(lastEmitted, 7) = eq(1, 7) = true`, because the code
compares `7` against the previous *input* `5`.  The spec's last-emitted
deduplication yields `[1]`, so the claim's "if and only if `eq(lastEmitted,
current)` is false" is refuted at this concrete input. -/
theorem c3_streamDistinct_lastEmitted_counterexample :
    streamDistinctUntilChanged (fun a _ : Nat => a == 1) [1, 5, 7] = [1, 7]
    ∧ specLastEmittedDistinct (fun a _ : Nat => a == 1) [1, 5, 7] = [1]
    ∧ (fun a _ : Nat => a == 1) 1 7 = true := by
  refine ⟨by decide, by decide, by decide⟩

/-- C3, amended.  `streamDistinctUntilChanged` emits the first input value
unconditionally and then emits each subsequent input value if and only if
`eq(previousInput, current)` is false, where `previousInput` is the
immediately preceding *input* element whether or not it was emitted (this
coincides with the spec's last-emitted formulation whenever `eq` is symmetric
and transitive, by `streamDistinctUntilChanged_eq_spec_of_equiv`). -/
theorem c3_streamDistinct_prevInput {A : Type} (isEqual : A → A → Bool)
    (xs : List A) :
    streamDistinctUntilChanged isEqual xs = prevInputDistinct isEqual xs
    ∧ (streamDistinctUntilChanged isEqual xs).head? = xs.head? :=
  ⟨streamDistinctUntilChanged_eq_prevInput isEqual xs,
   streamDistinctUntilChanged_head isEqual xs⟩

/-- C8, counterexample.  With the predicate `eq a b := a == 2` and input
`[2, 5, 9]` the source's output is `[2, 9]`, whose two adjacent elements *are*
related by the predicate (`eq 2 9 = true`): for an arbitrary predicate the
output is not adjacent-distinct under that predicate. -/
theorem c8_adjacent_distinct_counterexample :
    streamDistinctUntilChanged (fun a _ : Nat => a == 2) [2, 5, 9] = [2, 9]
    ∧ (fun a _ : Nat => a == 2) 2 9 = true
    ∧ ¬ List.Chain' (fun a b => (fun a _ : Nat => a == 2) a b = false)
        (streamDistinctUntilChanged (fun a _ : Nat => a == 2) [2, 5, 9]) := by
  refine ⟨by decide, by decide, ?_⟩
  rw [show streamDistinctUntilChanged (fun a _ : Nat => a == 2) [2, 5, 9]
        = [2, 9] by decide]
  simp [List.chain'_cons]

/-- C8, amended.  For every equality predicate and every input: *if* the
predicate is symmetric and transitive, the output of
`streamDistinctUntilChanged` contains no two adjacent elements related by the
predicate (the symmetry/transitivity hypotheses gate only this clause — for
an arbitrary predicate adjacent related outputs can occur, see the
counterexample); unconditionally, the first emitted value equals the first
upstream value (the sentinel never compares equal to anything); and under
standard equality the input `[1,1,2,2,2,3,3,1,1,4]` produces exactly
`[1,2,3,1,4]`. -/
theorem c8_adjacent_distinct {A : Type} (isEqual : A → A → Bool)
    (xs : List A) :
    ((∀ a b, isEqual a b = isEqual b a) →
      (∀ a b c, isEqual a b = true → isEqual b c = true →
        isEqual a c = true) →
      List.Chain' (fun a b => isEqual a b = false)
        (streamDistinctUntilChanged isEqual xs))
    ∧ (streamDistinctUntilChanged isEqual xs).head? = xs.head?
    ∧ streamDistinctUntilChanged (fun a b : Nat => a == b)
        [1, 1, 2, 2, 2, 3, 3, 1, 1, 4] = [1, 2, 3, 1, 4] := by
  refine ⟨?_, streamDistinctUntilChanged_head isEqual xs, by decide⟩
  intro hsym htrans
  rw [streamDistinctUntilChanged_eq_spec_of_equiv isEqual hsym htrans]
  exact specLastEmittedDistinct_chain isEqual xs

/-- Witness for `c8_adjacent_distinct`: the adjacent-distinct clause
discharged at the concrete predicate `(· == ·)` on `Bool` and input
`[true, true, false]`, the unconditional clauses taken from the same
instantiation. -/
theorem c8_adjacent_distinct_witness :
    List.Chain' (fun a b : Bool => (a == b) = false)
      (streamDistinctUntilChanged (fun a b : Bool => a == b)
        [true, true, false])
    ∧ (streamDistinctUntilChanged (fun a b : Bool => a == b)
        [true, true, false]).head? = ([true, true, false] : List Bool).head?
    ∧ streamDistinctUntilChanged (fun a b : Nat => a == b)
        [1, 1, 2, 2, 2, 3, 3, 1, 1, 4] = [1, 2, 3, 1, 4] :=
  ⟨(c8_adjacent_distinct (fun a b : Bool => a == b) [true, true, false]).1
     (by decide) (by decide),
   (c8_adjacent_distinct (fun a b : Bool => a == b) [true, true, false]).2.1,
   (c8_adjacent_distinct (fun a b : Bool => a == b) [true, true, false]).2.2⟩

/-! ## `makeStateStream` (src/core.ts, lines 95–110) and claim C6

The source merges a one-element stream holding `getState()` evaluated when the
stream is subscribed with the per-dispatch states of `storeActionStream`
(`a.state`, the store re-read immediately after each dispatch), maps the
selector over the merge, and deduplicates with reference equality
`(a, b) => a === b`.  Dispatches happen strictly after subscription on the
single-threaded host, so the merge is embedded deterministically as the
subscribe-time state followed by the post-dispatch states; `===` on the
selected values is embedded as decidable equality. -/

def makeStateStream {S T : Type} [DecidableEq T] (selector : S → T)
    (stateAtSubscribe : S) (statesAfterDispatch : List S) : List T :=
  streamDistinctUntilChanged (fun a b => decide (a = b))
    ((stateAtSubscribe :: statesAfterDispatch).map selector)

/-- C6.  The state stream's very first emission is the selector applied to the
state at the moment of subscription; subsequent emissions are the selected
post-dispatch states deduplicated against the last emitted value, so no two
consecutive emissions are equal; and subscribing at state `0` with dispatches
driving the state through `0, 1, 1, 2` yields exactly `[0, 1, 2]`. -/
theorem c6_makeStateStream {S T : Type} [DecidableEq T] (selector : S → T)
    (stateAtSubscribe : S) (statesAfterDispatch : List S) :
    (makeStateStream selector stateAtSubscribe statesAfterDispatch).head?
        = some (selector stateAtSubscribe)
    ∧ makeStateStream selector stateAtSubscribe statesAfterDispatch
        = specLastEmittedDistinct (fun a b => decide (a = b))
            ((stateAtSubscribe :: statesAfterDispatch).map selector)
    ∧ List.Chain' (fun a b => a ≠ b)
        (makeStateStream selector stateAtSubscribe statesAfterDispatch)
    ∧ makeStateStream (fun s : Nat => s) 0 [0, 1, 1, 2] = [0, 1, 2] := by
  refine ⟨?_, ?_, ?_, by decide⟩
  · rw [makeStateStream, streamDistinctUntilChanged_head]
    simp
  · exact streamDistinctUntilChanged_eq_spec_of_equiv _
      (fun a b => by by_cases h : a = b <;> simp [h, eq_comm])
      (fun a b c h1 h2 => by
        have ha := of_decide_eq_true h1
        have hb := of_decide_eq_true h2
        simp [ha, hb]) _
  · have heq := streamDistinctUntilChanged_eq_spec_of_equiv
      (fun a b : T => decide (a = b))
      (fun a b => by by_cases h : a = b <;> simp [h, eq_comm])
      (fun a b c h1 h2 => by
        have ha := of_decide_eq_true h1
        have hb := of_decide_eq_true h2
        simp [ha, hb])
      ((stateAtSubscribe :: statesAfterDispatch).map selector)
    have hchain := specLastEmittedDistinct_chain
      (fun a b : T => decide (a = b))
      ((stateAtSubscribe :: statesAfterDispatch).map selector)
    rw [makeStateStream, heq]
    exact List.Chain'.imp (fun a b h => of_decide_eq_false h) hchain

/-! ## Store-action bridge (src/utils/subscribeStoreActionEnhancerFactory.ts)

The enhancer wraps `dispatch`:

```
dispatch: action => {
  const stateSnapshot = store.getState()
  const res = store.dispatch(action)
  listeners.forEach(listener => {
    try { listener(action, stateSnapshot) }
    catch (error) { console.error('Error in action listener:', error) }
  })
  return res
},
subscribeAction: listener => {
  listeners.push(listener)
  return () => { listeners = listeners.filter(l => l !== listener) }
}
```

A listener is embedded by its function identity (`id` — two registrations of
the same function share the `id`), whether its body throws, and which
unsubscribe closures its body invokes.  `forEach` iterates the array value the
registry variable held when the broadcast began (an unsubscribe *reassigns*
the variable to a fresh filtered array, leaving the iteration untouched), so
the broadcast walks the registration list as of dispatch time while the
registry evolves alongside. -/

structure Listener (S A : Type) where
  id : Nat
  throws : Bool
  unsubs : List Nat
  deriving Repr, DecidableEq

/-- The unsubscribe closure returned by `subscribeAction` for a listener with
identity `id`: `listeners = listeners.filter(l => l !== listener)` — removes
*every* registration with that function identity. -/
def unsubscribeListeners {S A : Type} (registry : List (Listener S A))
    (id : Nat) : List (Listener S A) :=
  registry.filter (fun l => l.id != id)

/-- Unsubscribe closures invoked by a listener body, applied in order. -/
def applyUnsubs {S A : Type} (registry : List (Listener S A))
    (ids : List Nat) : List (Listener S A) :=
  ids.foldl unsubscribeListeners registry

/-- `subscribeAction`: `listeners.push(listener)` appends to the registry. -/
def subscribeAction {S A : Type} (registry : List (Listener S A))
    (l : Listener S A) : List (Listener S A) :=
  registry ++ [l]

/-- The `forEach` broadcast: the first component lists the invocations
`(listener identity, action, snapshot)` in order; the second lists the
identities whose bodies threw (each caught and logged); the third is the
registry after the broadcast (updated by unsubscribes the bodies performed).
The `try`/`catch` means a throwing body never stops the iteration. -/
def broadcastGo {S A : Type} (action : A) (snapshot : S) :
    List (Listener S A) → List (Listener S A) →
      List (Nat × A × S) × List Nat × List (Listener S A)
  | [], registry => ([], [], registry)
  | l :: rest, registry =>
    let registry1 := applyUnsubs registry l.unsubs
    let (calls, reported, registryFin) :=
      broadcastGo action snapshot rest registry1
    ((l.id, action, snapshot) :: calls,
     (if l.throws then l.id :: reported else reported),
     registryFin)

structure DispatchResult (S A : Type) where
  newState : S
  returnValue : A
  calls : List (Nat × A × S)
  reported : List Nat
  registry : List (Listener S A)

/-- The wrapped `dispatch`: snapshot the state, run the underlying dispatch
(the reducer), then broadcast `(action, snapshot)` over the listener list as
of dispatch time.  The function is total: a listener's throw is caught and
recorded in `reported`, never propagated out of `dispatch`. -/
def dispatch {S A : Type} (reducer : S → A → S) (state : S)
    (registry : List (Listener S A)) (action : A) : DispatchResult S A :=
  let stateSnapshot := state
  let newState := reducer state action
  let res := broadcastGo action stateSnapshot registry registry
  { newState := newState, returnValue := action, calls := res.1,
    reported := res.2.1, registry := res.2.2 }

/-- The broadcast invokes exactly the listeners present when it began, in
registration order, each exactly once with the pre-dispatch snapshot — whatever
their bodies throw or unsubscribe — and reports exactly the throwing ones. -/
theorem broadcastGo_spec {S A : Type} (action : A) (snapshot : S) :
    ∀ (toInvoke registry : List (Listener S A)),
      (broadcastGo action snapshot toInvoke registry).1
          = toInvoke.map (fun l => (l.id, action, snapshot))
      ∧ (broadcastGo action snapshot toInvoke registry).2.1
          = (toInvoke.filter (fun l => l.throws)).map (fun l => l.id) := by
  intro toInvoke
  induction toInvoke with
  | nil => intro registry; simp [broadcastGo]
  | cons l rest ih =>
    intro registry
    have h := ih (applyUnsubs registry l.unsubs)
    by_cases ht : l.throws <;>
      simp [broadcastGo, h.1, h.2, List.filter_cons, ht]

/-- C4.  On every dispatch through the wrapped store: the snapshot passed to
listeners is the state *before* the reducer ran; the reducer is applied to
produce the new state; every listener registered when the dispatch started is
invoked exactly once, in registration order, with `(action, snapshot)` — no
invocation is skipped or duplicated because a body threw or unsubscribed
mid-broadcast; the throwing listeners are exactly the reported ones; and
`dispatch` still returns its normal result (it is a total function — no
listener error escapes it). -/
theorem c4_dispatch_listener_isolation {S A : Type} (reducer : S → A → S)
    (state : S) (registry : List (Listener S A)) (action : A) :
    (dispatch reducer state registry action).calls
        = registry.map (fun l => (l.id, action, state))
    ∧ (dispatch reducer state registry action).newState
        = reducer state action
    ∧ (dispatch reducer state registry action).reported
        = (registry.filter (fun l => l.throws)).map (fun l => l.id)
    ∧ (dispatch reducer state registry action).returnValue = action := by
  have h := broadcastGo_spec action state registry registry
  exact ⟨h.1, rfl, h.2, rfl⟩

/-- C10.  Registering the same listener function twice adds two registrations,
but calling the unsubscribe closure returned by either registration removes
*every* registration of that identity (the closure filters by the function
value): afterwards the registry holds no registration of the function and a
subsequent dispatch invokes it zero times rather than once. -/
theorem c10_unsubscribe_removes_all_registrations {S A : Type}
    (registry : List (Listener S A)) (l : Listener S A) (reducer : S → A → S)
    (state : S) (action : A) :
    (subscribeAction (subscribeAction registry l) l).countP
        (fun m => m.id == l.id)
      = registry.countP (fun m => m.id == l.id) + 2
    ∧ (unsubscribeListeners (subscribeAction (subscribeAction registry l) l)
        l.id).countP (fun m => m.id == l.id) = 0
    ∧ ((dispatch reducer state
          (unsubscribeListeners (subscribeAction (subscribeAction registry l) l)
            l.id) action).calls.countP (fun c => c.1 == l.id)) = 0 := by
  refine ⟨?_, ?_, ?_⟩
  · simp [subscribeAction, List.countP_append, List.countP_cons]
  · rw [List.countP_eq_zero]
    intro m hm
    rcases List.mem_filter.mp hm with ⟨-, hne⟩
    simpa using hne
  · have h := broadcastGo_spec action state
      (unsubscribeListeners (subscribeAction (subscribeAction registry l) l)
        l.id)
      (unsubscribeListeners (subscribeAction (subscribeAction registry l) l)
        l.id)
    rw [show (dispatch reducer state
          (unsubscribeListeners (subscribeAction (subscribeAction registry l) l)
            l.id) action).calls = _ from h.1]
    rw [List.countP_map, List.countP_eq_zero]
    intro m hm
    rcases List.mem_filter.mp hm with ⟨-, hne⟩
    simpa using hne

/-! ## `takeEvery` and `takeLatest` (src/core.ts, lines 122–155)

Both combinators are a single `Stream.flatMap` drained into `Sink.drain`:

```
takeEvery:  stream.pipe(Stream.flatMap(a => handler(a), { concurrency: 1 }),
                        Stream.run(Sink.drain))
takeLatest: stream.pipe(Stream.flatMap(a => handler(a), { concurrency: 1, switch: true }),
                        Stream.run(Sink.drain))
```

The repository's contribution is the configuration passed to the runtime's
`flatMap`; the runtime's semantics for those configurations is embedded as a
timed, deterministic execution: the input is a list of `(arrivalTime,
duration)` pairs for the elements and their handlers, and the result records
for each element when its handler ran and whether it ran to completion.

* `concurrency: 1`, no `switch` — one inner effect at a time: a handler starts
  at the later of its element's arrival and the previous handler's completion,
  and always runs to completion.
* `concurrency: 1`, `switch: true` — a newly arrived element interrupts the
  running handler, the interruption completing before the new handler starts:
  a handler starts at its element's arrival and is cut off at the next
  element's arrival if that comes before its natural completion.
* `concurrency: "unbounded"` (what the spec claims for `take-every`, embedded
  only for comparison) — every handler starts at its element's arrival and
  runs to completion regardless of the others.
-/

inductive ConcurrencyOpt where
  | bounded (n : Nat)
  | unbounded
  deriving Repr, DecidableEq

structure FlatMapOptions where
  concurrency : ConcurrencyOpt
  «switch» : Bool
  deriving Repr, DecidableEq

/-- The options literal `{ concurrency: 1 }` that `takeEvery` passes to
`Stream.flatMap` (`switch` defaults to false). -/
def takeEvery_options : FlatMapOptions :=
  { concurrency := .bounded 1, «switch» := false }

/-- The options literal `{ concurrency: 1, switch: true }` that `takeLatest`
passes to `Stream.flatMap`. -/
def takeLatest_options : FlatMapOptions :=
  { concurrency := .bounded 1, «switch» := true }

/-- One handler execution: when it started, when it stopped (completion or
interruption), and whether it ran to completion. -/
structure HandlerRun where
  start : Nat
  stop : Nat
  completed : Bool
  deriving Repr, DecidableEq

/-- Sequential execution (`concurrency: 1`, no switch): each handler starts at
the later of its arrival and the previous completion (`prevEnd`), and runs to
completion. -/
def seqRuns : List (Nat × Nat) → Nat → List HandlerRun
  | [], _ => []
  | (arrival, duration) :: rest, prevEnd =>
    let s := max arrival prevEnd
    ⟨s, s + duration, true⟩ :: seqRuns rest (s + duration)

/-- Switching execution (`concurrency: 1`, `switch: true`): each handler starts
at its arrival; the arrival of the next element interrupts it if it has not yet
finished, the interruption completing at that arrival instant, before the next
handler starts. -/
def switchRuns : List (Nat × Nat) → List HandlerRun
  | [] => []
  | [(arrival, duration)] => [⟨arrival, arrival + duration, true⟩]
  | (arrival, duration) :: (next, d2) :: rest =>
    (if arrival + duration ≤ next then ⟨arrival, arrival + duration, true⟩
     else ⟨arrival, next, false⟩) :: switchRuns ((next, d2) :: rest)

/-- Unbounded execution (the spec's claimed semantics for `take-every`,
embedded for comparison only): every handler starts at its arrival and runs to
completion, however many are simultaneously in flight. -/
def unboundedRuns (events : List (Nat × Nat)) : List HandlerRun :=
  events.map (fun e => ⟨e.1, e.1 + e.2, true⟩)

/-- The drained `flatMap` under the configurations this repository uses (other
configurations do not occur in the source and are left unmodelled). -/
def flatMapDrainRuns (opts : FlatMapOptions) (events : List (Nat × Nat)) :
    List HandlerRun :=
  match opts.switch, opts.concurrency with
  | false, .bounded 1 => seqRuns events 0
  | true, .bounded 1 => switchRuns events
  | false, .unbounded => unboundedRuns events
  | _, _ => []

/-- Number of handlers in flight at instant `t`. -/
def inFlightAt (runs : List HandlerRun) (t : Nat) : Nat :=
  runs.countP (fun r => decide (r.start ≤ t ∧ t < r.stop))

example :
    flatMapDrainRuns takeEvery_options [(0, 2), (1, 1)]
      = [⟨0, 2, true⟩, ⟨2, 3, true⟩] := by decide

example :
    flatMapDrainRuns takeLatest_options [(0, 5), (1, 5), (2, 5)]
      = [⟨0, 1, false⟩, ⟨1, 2, false⟩, ⟨2, 7, true⟩] := by decide

/-- In a `(· < ·)`-chained arrival list the head's arrival bounds every
arrival. -/
theorem chainLt_head_le :
    ∀ (a : Nat × Nat) (rest : List (Nat × Nat)),
      List.Chain' (fun e1 e2 : Nat × Nat => e1.1 < e2.1) (a :: rest) →
      ∀ e ∈ a :: rest, a.1 ≤ e.1 := by
  intro a rest
  induction rest generalizing a with
  | nil =>
    intro _ e he
    rcases List.mem_singleton.mp he with rfl
    exact le_refl _
  | cons b rest ih =>
    intro h e he
    rcases List.chain'_cons.mp h with ⟨hab, hrest⟩
    rcases List.mem_cons.mp he with rfl | he'
    · exact le_refl _
    · exact le_trans (le_of_lt hab) (ih b hrest e he')

/-- The handlers of the switching execution start exactly at their elements'
arrival instants. -/
theorem switchRuns_starts :
    ∀ events : List (Nat × Nat),
      (switchRuns events).map (fun r => r.start) = events.map (fun e => e.1) := by
  intro events
  induction events with
  | nil => rfl
  | cons e rest ih =>
    rcases e with ⟨arrival, duration⟩
    cases rest with
    | nil => rfl
    | cons e2 rest' =>
      rcases e2 with ⟨next, d2⟩
      by_cases h : arrival + duration ≤ next <;>
        simp [switchRuns, h, ih]

/-- The head of the switching execution on a nonempty input starts at the first
arrival. -/
theorem switchRuns_head_start :
    ∀ (rest : List (Nat × Nat)) (arrival duration : Nat)
      (r : HandlerRun), r ∈ (switchRuns ((arrival, duration) :: rest)).head? →
      r.start = arrival := by
  intro rest arrival duration r hr
  cases rest with
  | nil =>
    simp [switchRuns] at hr
    subst hr
    rfl
  | cons e2 rest' =>
    rcases e2 with ⟨next, d2⟩
    by_cases h : arrival + duration ≤ next <;>
      simp [switchRuns, h] at hr <;> subst hr <;> rfl

/-- Every run of the switching execution starts at one of the arrivals. -/
theorem switchRuns_start_mem {events : List (Nat × Nat)} {r : HandlerRun}
    (hr : r ∈ switchRuns events) : r.start ∈ events.map (fun e => e.1) := by
  rw [← switchRuns_starts]
  exact List.mem_map_of_mem (fun r => r.start) hr

/-- For arrival-sorted input the switching execution's runs are pairwise
disjoint in time: every earlier handler has stopped (completed or been
interrupted) before any later handler starts. -/
theorem switchRuns_pairwise :
    ∀ events : List (Nat × Nat),
      List.Chain' (fun e1 e2 : Nat × Nat => e1.1 < e2.1) events →
      List.Pairwise (fun r1 r2 => r1.stop ≤ r2.start) (switchRuns events) := by
  intro events
  induction events with
  | nil => intro _; simp [switchRuns]
  | cons e rest ih =>
    rcases e with ⟨arrival, duration⟩
    cases rest with
    | nil => intro _; simp [switchRuns]
    | cons e2 rest' =>
      rcases e2 with ⟨next, d2⟩
      intro hsorted
      rcases List.chain'_cons.mp hsorted with ⟨hlt, hrest⟩
      have htail := ih hrest
      have hbound : ∀ r' ∈ switchRuns ((next, d2) :: rest'), next ≤ r'.start := by
        intro r' hr'
        have hmem := switchRuns_start_mem hr'
        rcases List.mem_map.mp hmem with ⟨e', he', heq⟩
        rw [← heq]
        exact chainLt_head_le (next, d2) rest' hrest e' he'
      by_cases h : arrival + duration ≤ next
      · simp only [switchRuns, h, if_true]
        exact List.pairwise_cons.mpr
          ⟨fun r' hr' => le_trans h (hbound r' hr'), htail⟩
      · simp only [switchRuns, h, if_false]
        exact List.pairwise_cons.mpr ⟨fun r' hr' => hbound r' hr', htail⟩

/-- For arrival-sorted input, adjacent runs of the switching execution satisfy:
the earlier one stops no later than the later one starts, and if the earlier
one did *not* complete then it was interrupted exactly at the instant the later
one starts (the cancellation finishes before the next handler begins). -/
theorem switchRuns_chain :
    ∀ events : List (Nat × Nat),
      List.Chain' (fun e1 e2 : Nat × Nat => e1.1 < e2.1) events →
      List.Chain'
        (fun r1 r2 => r1.stop ≤ r2.start
          ∧ (r1.completed = false → r1.stop = r2.start))
        (switchRuns events) := by
  intro events
  induction events with
  | nil => intro _; simp [switchRuns]
  | cons e rest ih =>
    rcases e with ⟨arrival, duration⟩
    cases rest with
    | nil => intro _; simp [switchRuns]
    | cons e2 rest' =>
      rcases e2 with ⟨next, d2⟩
      intro hsorted
      rcases List.chain'_cons.mp hsorted with ⟨-, hrest⟩
      have htail := ih hrest
      rw [show switchRuns ((arrival, duration) :: (next, d2) :: rest')
            = (if arrival + duration ≤ next
                then (⟨arrival, arrival + duration, true⟩ : HandlerRun)
                else ⟨arrival, next, false⟩) :: switchRuns ((next, d2) :: rest')
          from rfl]
      rw [List.chain'_cons']
      refine ⟨?_, htail⟩
      intro y hy
      have hystart : y.start = next := switchRuns_head_start rest' next d2 y hy
      by_cases h : arrival + duration ≤ next <;>
        simp [h, hystart]

/-- Pairwise-disjoint runs have at most one handler in flight at any instant. -/
theorem pairwise_disjoint_inFlightAt (runs : List HandlerRun)
    (h : List.Pairwise (fun r1 r2 => r1.stop ≤ r2.start) runs) (t : Nat) :
    inFlightAt runs t ≤ 1 := by
  induction runs with
  | nil => simp [inFlightAt]
  | cons r rest ih =>
    rcases List.pairwise_cons.mp h with ⟨hr, hrest⟩
    have hrec := ih hrest
    rw [inFlightAt] at hrec ⊢
    simp only [List.countP_cons]
    by_cases hp : r.start ≤ t ∧ t < r.stop
    · have hzero :
          rest.countP (fun r' => decide (r'.start ≤ t ∧ t < r'.stop)) = 0 := by
        rw [List.countP_eq_zero]
        intro r' hr'
        have hle := hr r' hr'
        simp only [decide_eq_true_eq, not_and, not_lt]
        intro hstart
        omega
      have hpt : decide (r.start ≤ t ∧ t < r.stop) = true := decide_eq_true hp
      rw [hzero, hpt]
      simp
    · have hpt : decide (r.start ≤ t ∧ t < r.stop) = false :=
        decide_eq_false hp
      rw [hpt]
      simpa using hrec

/-- The sequential execution handles the elements one-to-one: each handler runs
to completion for exactly its element's duration, starting no earlier than the
element's arrival. -/
theorem seqRuns_forall₂ :
    ∀ (events : List (Nat × Nat)) (prevEnd : Nat),
      List.Forall₂
        (fun (e : Nat × Nat) (r : HandlerRun) =>
          r.completed = true ∧ r.stop = r.start + e.2 ∧ e.1 ≤ r.start)
        events (seqRuns events prevEnd) := by
  intro events
  induction events with
  | nil => intro prevEnd; simp [seqRuns]
  | cons e rest ih =>
    intro prevEnd
    rcases e with ⟨arrival, duration⟩
    exact List.Forall₂.cons ⟨rfl, rfl, le_max_left _ _⟩ (ih _)

/-- Every run of the sequential execution starts no earlier than the incoming
`prevEnd` bound. -/
theorem seqRuns_start_ge :
    ∀ (events : List (Nat × Nat)) (prevEnd : Nat),
      ∀ r ∈ seqRuns events prevEnd, prevEnd ≤ r.start := by
  intro events
  induction events with
  | nil => intro prevEnd r hr; simp [seqRuns] at hr
  | cons e rest ih =>
    intro prevEnd r hr
    rcases e with ⟨arrival, duration⟩
    rcases List.mem_cons.mp hr with rfl | hr'
    · exact le_max_right _ _
    · have := ih (max arrival prevEnd + duration) r hr'
      omega

/-- The sequential execution's runs are pairwise disjoint: each handler has
completed before the next one starts. -/
theorem seqRuns_pairwise :
    ∀ (events : List (Nat × Nat)) (prevEnd : Nat),
      List.Pairwise (fun r1 r2 => r1.stop ≤ r2.start)
        (seqRuns events prevEnd) := by
  intro events
  induction events with
  | nil => intro prevEnd; simp [seqRuns]
  | cons e rest ih =>
    intro prevEnd
    rcases e with ⟨arrival, duration⟩
    refine List.pairwise_cons.mpr ⟨?_, ih _⟩
    intro r' hr'
    exact seqRuns_start_ge rest _ r' hr'

/-- C1, counterexample.  `takeEvery` passes `{ concurrency: 1 }` to `flatMap`,
so handlers run one at a time, not with unbounded concurrency.  With elements
arriving at instants 0 and 1 whose handlers take 2 and 1 units, the second
handler starts at instant 2 — after the first completes — not "immediately" at
its element's arrival instant 1, and at instant 1 exactly one handler is in
flight where the claimed unbounded spawning would have two. -/
theorem c1_takeEvery_bounded_counterexample :
    flatMapDrainRuns takeEvery_options [(0, 2), (1, 1)]
        ≠ unboundedRuns [(0, 2), (1, 1)]
    ∧ flatMapDrainRuns takeEvery_options [(0, 2), (1, 1)]
        = [⟨0, 2, true⟩, ⟨2, 3, true⟩]
    ∧ unboundedRuns [(0, 2), (1, 1)] = [⟨0, 2, true⟩, ⟨1, 2, true⟩]
    ∧ inFlightAt (flatMapDrainRuns takeEvery_options [(0, 2), (1, 1)]) 1 = 1
    ∧ inFlightAt (unboundedRuns [(0, 2), (1, 1)]) 1 = 2 := by
  refine ⟨by decide, by decide, by decide, by decide, by decide⟩

/-- C1, amended.  `takeEvery` (a drained `flatMap` with `concurrency: 1`) runs
one handler per element *sequentially*: every element gets a handler
(one-to-one, in order), each handler starts no earlier than its element's
arrival, runs to completion for its full duration, and the previous handler has
completed before the next starts — so at most one handler is in flight at any
instant, and the combinator is done exactly when the sequence has ended and
every (all sequentially executed) handler has completed. -/
theorem c1_takeEvery_sequential (events : List (Nat × Nat)) :
    List.Forall₂
      (fun (e : Nat × Nat) (r : HandlerRun) =>
        r.completed = true ∧ r.stop = r.start + e.2 ∧ e.1 ≤ r.start)
      events (flatMapDrainRuns takeEvery_options events)
    ∧ List.Pairwise (fun r1 r2 => r1.stop ≤ r2.start)
        (flatMapDrainRuns takeEvery_options events)
    ∧ ∀ t, inFlightAt (flatMapDrainRuns takeEvery_options events) t ≤ 1 := by
  have heq : flatMapDrainRuns takeEvery_options events = seqRuns events 0 := rfl
  rw [heq]
  exact ⟨seqRuns_forall₂ events 0, seqRuns_pairwise events 0,
    fun t => pairwise_disjoint_inFlightAt _ (seqRuns_pairwise events 0) t⟩

/-- C5.  `takeLatest` (a drained `flatMap` with `concurrency: 1, switch: true`)
on an arrival-sorted sequence: each element's handler starts at its arrival
instant; runs are pairwise disjoint in time, so two handler invocations never
overlap and at most one handler is in flight at any instant; and between
adjacent runs, the earlier handler has stopped by the time the later starts —
in particular a handler that did not complete was interrupted exactly at the
instant the next handler starts, i.e. its cancellation is finished before the
new handler begins. -/
theorem c5_takeLatest_no_overlap (events : List (Nat × Nat))
    (hsorted : List.Chain' (fun e1 e2 : Nat × Nat => e1.1 < e2.1) events) :
    (flatMapDrainRuns takeLatest_options events).map (fun r => r.start)
        = events.map (fun e => e.1)
    ∧ List.Pairwise (fun r1 r2 => r1.stop ≤ r2.start)
        (flatMapDrainRuns takeLatest_options events)
    ∧ List.Chain'
        (fun r1 r2 => r1.stop ≤ r2.start
          ∧ (r1.completed = false → r1.stop = r2.start))
        (flatMapDrainRuns takeLatest_options events)
    ∧ ∀ t, inFlightAt (flatMapDrainRuns takeLatest_options events) t ≤ 1 := by
  have heq : flatMapDrainRuns takeLatest_options events = switchRuns events :=
    rfl
  rw [heq]
  exact ⟨switchRuns_starts events, switchRuns_pairwise events hsorted,
    switchRuns_chain events hsorted,
    fun t => pairwise_disjoint_inFlightAt _ (switchRuns_pairwise events hsorted) t⟩

/-- Witness for `c5_takeLatest_no_overlap`: three elements arriving at 0, 1, 2
with 5-unit handlers — the first two handlers are interrupted at the next
arrival, only the last completes. -/
theorem c5_takeLatest_no_overlap_witness :
    List.Chain' (fun e1 e2 : Nat × Nat => e1.1 < e2.1) [(0, 5), (1, 5), (2, 5)]
    ∧ ((flatMapDrainRuns takeLatest_options [(0, 5), (1, 5), (2, 5)]).map
          (fun r => r.start)
        = ([(0, 5), (1, 5), (2, 5)] : List (Nat × Nat)).map (fun e => e.1)
      ∧ List.Pairwise (fun r1 r2 => r1.stop ≤ r2.start)
          (flatMapDrainRuns takeLatest_options [(0, 5), (1, 5), (2, 5)])
      ∧ List.Chain'
          (fun r1 r2 => r1.stop ≤ r2.start
            ∧ (r1.completed = false → r1.stop = r2.start))
          (flatMapDrainRuns takeLatest_options [(0, 5), (1, 5), (2, 5)])
      ∧ ∀ t, inFlightAt
          (flatMapDrainRuns takeLatest_options [(0, 5), (1, 5), (2, 5)]) t ≤ 1) :=
  ⟨by simp [List.chain'_cons, List.chain'_singleton],
   c5_takeLatest_no_overlap [(0, 5), (1, 5), (2, 5)]
     (by simp [List.chain'_cons, List.chain'_singleton])⟩

/-! ## Saga runner (src/utils/effectSagaEnhancerFactory.ts)

The runner closes over one mutable slot

```
let running: null | { runtime, fiber } = null
```

and exposes three `async` functions.  Their bodies, split at the `await`
points that yield control back to the event loop:

* `start`: `await storeDefer.promise; await makeSagaRuntime(...)` (allocates a
  fresh runtime and touches no shared state), then — atomically —
  `Runtime.runFork` and `attachFiberObserver` (install the new task into
  `running`).
* `stop`: read `running` (if `null`, return); `await Fiber.interrupt(fiber)`
  (during which the fiber terminates: its observer removes it and, if
  `running` still refers to it, nulls `running`); then `running = null`.
* `switchSaga`: read `running` (if `null`, return); capture its `runtime`;
  `await Fiber.interrupt(fiber)` (observer fires as above); then — atomically —
  `Runtime.runFork(runtime, saga)` with the *captured* runtime and
  `attachFiberObserver`.

Fibers and runtimes are identified by allocation counters; `live` is the set
of forked fibers that have not terminated. -/

structure RunningTask where
  runtime : Nat
  fiber : Nat
  deriving Repr, DecidableEq

structure RunnerState where
  running : Option RunningTask
  live : List Nat
  nextFiber : Nat
  nextRuntime : Nat
  deriving Repr, DecidableEq

/-- A runner as returned by `createEffectSagaRunner`: no task yet. -/
def freshRunner : RunnerState :=
  { running := none, live := [], nextFiber := 0, nextRuntime := 0 }

/-- `start`'s awaits (`storeDefer.promise`, `makeSagaRuntime`): allocates a
fresh runtime, leaving the shared slot untouched. -/
def startAwaitRuntime (s : RunnerState) : Nat × RunnerState :=
  (s.nextRuntime, { s with nextRuntime := s.nextRuntime + 1 })

/-- `Runtime.runFork(runtime, saga)` followed by `attachFiberObserver`: forks
a fresh fiber and installs it as the RunningTask — a single synchronous step
with no `await` in between. -/
def startForkInstall (runtime : Nat) (s : RunnerState) : RunnerState :=
  { s with live := s.live ++ [s.nextFiber],
           running := some { runtime := runtime, fiber := s.nextFiber },
           nextFiber := s.nextFiber + 1 }

/-- A fiber terminating: it leaves the live set, and its observer
(`attachFiberObserver`'s callback) nulls the record if the record still refers
to this very fiber (`if (running?.fiber === fiber) running = null`). -/
def fiberExitObserver (s : RunnerState) (fiber : Nat) : RunnerState :=
  { s with live := s.live.filter (fun f => f != fiber),
           running :=
             match s.running with
             | some r => if r.fiber = fiber then none else some r
             | none => none }

/-- `stop`'s synchronous prefix: read the shared slot. -/
def stopCheck (s : RunnerState) : Option RunningTask := s.running

/-- `await Runtime.runPromise(runtime, Fiber.interrupt(fiber))` completing for
the task `stop` captured: the fiber terminates and its observer fires. -/
def stopInterruptDone (r : RunningTask) (s : RunnerState) : RunnerState :=
  fiberExitObserver s r.fiber

/-- `stop`'s continuation after the await: `running = null`
(unconditionally). -/
def stopClear (s : RunnerState) : RunnerState :=
  { s with running := none }

/-- Observable steps of a runner transition, in execution order. -/
inductive RunnerEvent where
  | interruptAwaited (fiber : Nat)
  | recordCleared
  | forked (fiber : Nat)
  | recordInstalled (fiber : Nat)
  deriving Repr, DecidableEq

/-- `start()` run without interleaving, with its event trace. -/
def startOp (s : RunnerState) : RunnerState × List RunnerEvent :=
  let res := startAwaitRuntime s
  (startForkInstall res.1 res.2,
   [.forked res.2.nextFiber, .recordInstalled res.2.nextFiber])

/-- `stop()` run without interleaving, with its event trace. -/
def stopOp (s : RunnerState) : RunnerState × List RunnerEvent :=
  match stopCheck s with
  | none => (s, [])
  | some r =>
    (stopClear (stopInterruptDone r s), [.interruptAwaited r.fiber, .recordCleared])

/-- `switchSaga(newSaga)` run without interleaving, with its event trace: when
a task is recorded, interrupt it (awaited; the observer clears the record),
then fork the new saga in the *captured* runtime and install it. -/
def switchSaga (s : RunnerState) : RunnerState × List RunnerEvent :=
  match s.running with
  | none => (s, [])
  | some r =>
    let s1 := fiberExitObserver s r.fiber
    (startForkInstall r.runtime s1,
     [.interruptAwaited r.fiber, .recordCleared, .forked s1.nextFiber,
      .recordInstalled s1.nextFiber])

/-- Number of RunningTask records a runner holds (the slot is a single
variable, so this is 0 or 1 by construction). -/
def recordCount (s : RunnerState) : Nat :=
  match s.running with
  | none => 0
  | some _ => 1

/-- Every runner state holds at most one RunningTask record. -/
theorem recordCount_le_one (s : RunnerState) : recordCount s ≤ 1 := by
  rw [recordCount]
  cases s.running <;> simp

/-- One overlapping schedule of a `stop()` and a `start()` call on a runner
whose task 0 is running: `stop` reads the record and suspends awaiting the
interrupt; the interrupt completes (observer clears the record); the
concurrent `start` then runs to completion, forking fiber 1 and installing it;
finally `stop`'s continuation executes `running = null`.  Every step is one of
the atomic segments between `await`s of the source, so this is a schedule the
event loop can produce. -/
def overlappedStopStart : RunnerState :=
  let s0 := (startOp freshRunner).1
  let s1 := stopInterruptDone { runtime := 0, fiber := 0 } s0
  let s2 := startForkInstall (startAwaitRuntime s1).1 (startAwaitRuntime s1).2
  stopClear s2

/-- C2, counterexample.  The runner does not serialize overlapping
transitions: in the schedule `overlappedStopStart`, the `stop` that began
first takes effect last, and the final state — no record, but fiber 1 alive
and untracked — differs from the outcome of *both* serial orders
(`stop` then `start`: fiber 1 recorded and alive; `start` then `stop`: no
record, fiber 1 interrupted, fiber 0 alive).  So the concurrent calls are not
serialized by the runner, refuting the claim at this concrete schedule. -/
theorem c2_interleaving_counterexample :
    stopCheck (startOp freshRunner).1 = some { runtime := 0, fiber := 0 }
    ∧ overlappedStopStart ≠ (startOp (stopOp (startOp freshRunner).1).1).1
    ∧ overlappedStopStart ≠ (stopOp (startOp (startOp freshRunner).1).1).1
    ∧ overlappedStopStart.running = none
    ∧ overlappedStopStart.live = [1] := by
  refine ⟨by decide, by decide, by decide, by decide, by decide⟩

/-- C2, amended.  The RunningTask slot is a single variable, so at most one
record exists at any instant; and a `switchSaga` that runs without
interleaving cancels the old task, the record being cleared by the old
fiber's observer *before* the new task is forked and installed (the event
trace is interrupt-awaited, record-cleared, forked, record-installed), leaving
exactly the new task recorded.  The serialization of *overlapping* calls
claimed by the spec is, however, not provided — see
the interleaving counterexample. -/
theorem c2_single_record_serial_switch (s : RunnerState) (r : RunningTask)
    (h : s.running = some r) :
    (switchSaga s).2
        = [.interruptAwaited r.fiber, .recordCleared, .forked s.nextFiber,
           .recordInstalled s.nextFiber]
    ∧ (switchSaga s).1.running
        = some { runtime := r.runtime, fiber := s.nextFiber }
    ∧ (∀ t : RunnerState, recordCount t ≤ 1) := by
  refine ⟨?_, ?_, fun t => recordCount_le_one t⟩
  · simp [switchSaga, h, fiberExitObserver]
  · simp [switchSaga, h, startForkInstall, fiberExitObserver]

/-- Witness for `c2_single_record_serial_switch` on the runner obtained by one
completed `start` from a fresh runner. -/
theorem c2_single_record_serial_switch_witness :
    (startOp freshRunner).1.running = some { runtime := 0, fiber := 0 }
    ∧ ((switchSaga (startOp freshRunner).1).2
          = [.interruptAwaited 0, .recordCleared, .forked 1,
             .recordInstalled 1]
        ∧ (switchSaga (startOp freshRunner).1).1.running
            = some { runtime := 0, fiber := 1 }
        ∧ (∀ t : RunnerState, recordCount t ≤ 1)) :=
  ⟨by decide,
   c2_single_record_serial_switch (startOp freshRunner).1
     { runtime := 0, fiber := 0 } (by decide)⟩

/-- C9.  `switchSaga(newSaga)` with no RunningTask is a no-op: the state is
unchanged and no event happens — in particular `newSaga` is not forked.  With
a RunningTask `r` (whose fiber, being allocated from the counter, is below
`nextFiber`): the old fiber is interrupted and the interruption awaited — the
old fiber leaves the live set and the record is cleared — strictly before the
new saga is forked; the new task runs in the *same* runtime `r.runtime` (the
same injected services) and is installed as the new RunningTask. -/
theorem c9_switchSaga_semantics (s : RunnerState) :
    (s.running = none → switchSaga s = (s, []))
    ∧ ∀ r : RunningTask, s.running = some r → r.fiber < s.nextFiber →
        (switchSaga s).1.running
            = some { runtime := r.runtime, fiber := s.nextFiber }
        ∧ r.fiber ∉ (switchSaga s).1.live
        ∧ s.nextFiber ∈ (switchSaga s).1.live
        ∧ (switchSaga s).2
            = [.interruptAwaited r.fiber, .recordCleared, .forked s.nextFiber,
               .recordInstalled s.nextFiber] := by
  constructor
  · intro h
    simp [switchSaga, h]
  · intro r h hf
    refine ⟨?_, ?_, ?_, ?_⟩
    · simp [switchSaga, h, startForkInstall, fiberExitObserver]
    · simp only [switchSaga, h, startForkInstall, fiberExitObserver]
      simp only [List.mem_append, List.mem_filter, List.mem_singleton]
      rintro (⟨-, hne⟩ | heq)
      · simp at hne
      · omega
    · simp [switchSaga, h, startForkInstall, fiberExitObserver]
    · simp [switchSaga, h, fiberExitObserver]

/-- Witness for `c9_switchSaga_semantics`: the no-op branch on a fresh runner
and the switching branch on a runner with task `{runtime 0, fiber 0}`
running. -/
theorem c9_switchSaga_semantics_witness :
    switchSaga freshRunner = (freshRunner, [])
    ∧ ((switchSaga (startOp freshRunner).1).1.running
          = some { runtime := 0, fiber := 1 }
        ∧ 0 ∉ (switchSaga (startOp freshRunner).1).1.live
        ∧ 1 ∈ (switchSaga (startOp freshRunner).1).1.live
        ∧ (switchSaga (startOp freshRunner).1).2
            = [.interruptAwaited 0, .recordCleared, .forked 1,
               .recordInstalled 1]) :=
  ⟨(c9_switchSaga_semantics freshRunner).1 rfl,
   (c9_switchSaga_semantics (startOp freshRunner).1).2
     { runtime := 0, fiber := 0 } (by decide) (by decide)⟩

/-! ## Fiber observer and error classification (effectSagaEnhancerFactory.ts,
lines 87–95)

```
fiber.addObserver(exit => {
  if (running?.fiber === fiber) { running = null }
  if (Exit.isFailure(exit) && !Cause.isInterruptedOnly(exit.cause)) {
    onError(exit)
  }
})
```

The runtime's `Cause` is a tree whose leaves are `Empty`, `Fail` (typed
failure), `Die` (defect) and `Interrupt`, combined by `Sequential` and
`Parallel`; `Cause.isInterruptedOnly` holds when no `Fail` or `Die` leaf
occurs; `Exit` is success or failure-with-cause. -/

inductive Cause (E : Type) where
  | empty
  | fail (error : E)
  | die
  | interrupt
  | sequential (left right : Cause E)
  | parallel (left right : Cause E)
  deriving Repr, DecidableEq

/-- `Cause.isInterruptedOnly`: only `Interrupt` (and `Empty`) leaves. -/
def isInterruptedOnly {E : Type} : Cause E → Bool
  | .empty => true
  | .fail _ => false
  | .die => false
  | .interrupt => true
  | .sequential l r => isInterruptedOnly l && isInterruptedOnly r
  | .parallel l r => isInterruptedOnly l && isInterruptedOnly r

inductive Exit (E A : Type) where
  | success (value : A)
  | failure (cause : Cause E)
  deriving Repr, DecidableEq

/-- The observer attached by `attachFiberObserver`: clears the record if it
still refers to the exiting fiber, and decides whether `onError` is invoked —
`Exit.isFailure(exit) && !Cause.isInterruptedOnly(exit.cause)`. -/
def fiberObserver {E A : Type} (running : Option RunningTask) (fiber : Nat)
    (exit : Exit E A) : Option RunningTask × Bool :=
  (match running with
   | some r => if r.fiber = fiber then none else some r
   | none => none,
   match exit with
   | .success _ => false
   | .failure c => !isInterruptedOnly c)

/-- A cause carries a genuine failure when it contains a `Fail` or `Die` leaf
(the spec's "failure that is not pure cancellation"). -/
def causeHasDefect {E : Type} : Cause E → Bool
  | .empty => false
  | .fail _ => true
  | .die => true
  | .interrupt => false
  | .sequential l r => causeHasDefect l || causeHasDefect r
  | .parallel l r => causeHasDefect l || causeHasDefect r

/-- A terminal outcome is a genuine failure when it is a failure whose cause
contains a `Fail` or `Die` leaf; success and interruption-only failures are
not. -/
def exitHasDefect {E A : Type} : Exit E A → Bool
  | .success _ => false
  | .failure c => causeHasDefect c

/-- A cause is interruption-only exactly when it contains no genuine
failure. -/
theorem isInterruptedOnly_eq_not_hasDefect {E : Type} (c : Cause E) :
    isInterruptedOnly c = !causeHasDefect c := by
  induction c with
  | empty => rfl
  | fail e => rfl
  | die => rfl
  | interrupt => rfl
  | sequential l r ihl ihr =>
    simp [isInterruptedOnly, causeHasDefect, ihl, ihr]
  | parallel l r ihl ihr =>
    simp [isInterruptedOnly, causeHasDefect, ihl, ihr]

/-- C7.  The observer invokes `onError` exactly on a genuine failure: its
decision equals "the exit is a failure whose cause contains a `Fail` or `Die`
leaf".  In particular `onError` is never invoked on success, nor when the
termination cause consists of interruptions only. -/
theorem c7_onError_exactly_on_genuine_failure {E A : Type}
    (running : Option RunningTask) (fiber : Nat) (exit : Exit E A) :
    (fiberObserver running fiber exit).2 = exitHasDefect exit := by
  cases exit with
  | success a => rfl
  | failure c =>
    simp [fiberObserver, exitHasDefect, isInterruptedOnly_eq_not_hasDefect]
